import Mathlib

/-!
Shallow embedding of the stopwatch program (src/main.c) and proofs about it.

Modelling conventions:
- C strings are `List Char` (end of list plays the role of the NUL terminator).
- The C `long` type (LP64: 64 bits, two's complement) is modelled as `Int`
  with an explicit 64-bit wraparound `wrap64` applied wherever the source
  performs `long` arithmetic that can exceed the representable range.
- The C `int` type (32 bits) is modelled likewise with `wrap32` at the
  points where a `long` value is converted to `int`.
- `struct timespec` is the two-field structure `Timespec` below.
- Fallible functions return their C result code together with the final
  value of the out-parameter, so error-path behaviour is observable.
-/

/-- Model of `struct timespec`: a seconds and a nanoseconds field, both
stored in signed 64-bit integers in the source. -/
structure Timespec where
  tv_sec : Int
  tv_nsec : Int
deriving DecidableEq

/-- The constant `NSEC_PER_MSEC` from main.c. -/
def NSEC_PER_MSEC : Int := 1000000

/-- The constant `NSEC_PER_DECISEC` from main.c. -/
def NSEC_PER_DECISEC : Int := 100000000

/-- Two's-complement wraparound of a 64-bit signed `long` (LP64). -/
def wrap64 (x : Int) : Int := Int.emod (x + 2 ^ 63) (2 ^ 64) - 2 ^ 63

/-- Two's-complement wraparound of a 32-bit signed `int`. -/
def wrap32 (x : Int) : Int := Int.emod (x + 2 ^ 31) (2 ^ 32) - 2 ^ 31

/-- C `isdigit` on the ASCII range: the character codes of the decimal
digits are 48 through 57. -/
def isdigit (c : Char) : Bool :=
  decide (48 ≤ c.toNat) && decide (c.toNat ≤ 57)

/-- The C expression `value[i] - '0'` as an integer. -/
def digitVal (c : Char) : Int := (c.toNat : Int) - 48

/-- The integer-part loop of `parse_time_interval` (main.c lines 85-87):
consumes leading digit characters, accumulating
`integer_part = integer_part * 10 + (value[i] - '0')` in a `long`.
Returns the accumulator, the unconsumed rest of the string and the
index `i` reached (number of characters consumed so far). -/
def intLoop : List Char → Int → Nat → Int × List Char × Nat
  | [], acc, i => (acc, [], i)
  | c :: cs, acc, i =>
    if isdigit c then intLoop cs (wrap64 (acc * 10 + digitVal c)) (i + 1)
    else (acc, c :: cs, i)

/-- The fractional-part loop of `parse_time_interval` (main.c lines 104-112):
consumes digit characters, adding `(value[i] - '0') * weight` each time,
dividing the weight by ten, and jumping to the success label as soon as the
weight reaches zero (after the ninth fractional digit).  Returns the
accumulated `fractional_part`, the unconsumed rest, the index reached, and
whether the loop exited through the `goto success` jump. -/
def fracLoop : List Char → Int → Int → Nat → Int × List Char × Nat × Bool
  | [], acc, _, i => (acc, [], i, false)
  | c :: cs, acc, w, i =>
    if isdigit c then
      let acc2 := wrap64 (acc + digitVal c * w)
      let w2 := Int.tdiv w 10
      if w2 = 0 then (acc2, cs, i, true)
      else fracLoop cs acc2 w2 (i + 1)
    else (acc, c :: cs, i, false)

/-- `parse_time_interval` from main.c (lines 77-130).  Takes the input
string and the current value of the `result` out-parameter; returns the C
return code (`0` on success, `-1` on error) together with the final value
of the out-parameter.  The out-parameter is written only at the `success`
label. -/
def parse_time_interval (value : List Char) (result : Timespec) :
    Int × Timespec :=
  match intLoop value 0 0 with
  | (integer_part, rest, i) =>
    match rest with
    | c :: rest2 =>
      if c = '.' then
        match fracLoop rest2 0 NSEC_PER_DECISEC (i + 1) with
        | (fractional_part, rest3, i2, jumped) =>
          if jumped then (0, ⟨integer_part, fractional_part⟩)
          else
            match rest3 with
            | [] =>
              if i2 = 1 then (-1, result)
              else (0, ⟨integer_part, fractional_part⟩)
            | _ :: _ => (-1, result)
      else (-1, result)
    | [] =>
      if i = 0 then (-1, result)
      else (0, ⟨integer_part, 0⟩)

/-- Exact (unbounded) decimal accumulation `acc * 10 + digit`, the
mathematical value the integer-part loop would compute if `long` never
overflowed. -/
def decFold (acc : Int) : List Char → Int
  | [] => acc
  | c :: cs => decFold (acc * 10 + digitVal c) cs

/-- The wrapping decimal accumulation actually performed by `intLoop`. -/
def wrapFold (acc : Int) : List Char → Int
  | [] => acc
  | c :: cs => wrapFold (wrap64 (acc * 10 + digitVal c)) cs

/-- Positional weighting of a list of fractional digit characters: the
first character has weight `10 ^ m` nanoseconds, the next `10 ^ (m - 1)`,
and so on.  With `m = 8` this is the sum over 1-based positions `k` of
`digit_k * 10 ^ (9 - k)`, the weighting stated in the spec. -/
def posW : List Char → Nat → Int
  | [], _ => 0
  | c :: cs, m => digitVal c * 10 ^ m + posW cs (m - 1)

/-- The signals the display loop can receive from `sigwaitinfo`:
the refresh-timer signal (a tick) or `SIGINT` (stop). -/
inductive SWEvent where
  | tick
  | stop
deriving DecidableEq

/-- Observable actions on the output sink: forwarding one sampled elapsed
time (`output.update`) or emitting the final newline (`putchar`). -/
inductive OutAction where
  | update (ts : Timespec)
  | newline
deriving DecidableEq

/-- The display loop of `main` (main.c lines 226-238) over a stream of
delivered signals, each paired with the elapsed time that
`stopwatch_get_time` returns at that iteration.  Each iteration waits for
a signal, samples the stopwatch and forwards the sample to the sink; the
loop condition then re-checks the signal, so a `stop` iteration still
forwards its sample before the loop exits and the final newline is
emitted.  An exhausted stream models a loop still blocked in
`sigwaitinfo` (the error return of `sigwaitinfo` is not modelled). -/
def displayLoop : List (SWEvent × Timespec) → List OutAction
  | [] => []
  | (e, ts) :: rest =>
    OutAction.update ts ::
      match e with
      | SWEvent.tick => displayLoop rest
      | SWEvent.stop => [OutAction.newline]

/-- The apostrophe character used in the rendered format. -/
def apostChar : Char := Char.ofNat 39

/-- The double-quote character used in the rendered format. -/
def quoteChar : Char := Char.ofNat 34

/-- Decimal rendering of an `Int`, as printf `%d` renders an `int`. -/
def intDecimal (v : Int) : List Char :=
  if v < 0 then '-' :: Nat.toDigits 10 (-v).toNat
  else Nat.toDigits 10 v.toNat

/-- Left-pad a character list with zeros to the given width. -/
def zeroPad (w : Nat) (ds : List Char) : List Char :=
  List.replicate (w - ds.length) '0' ++ ds

/-- Decimal rendering of an `Int` zero-padded to a field width, as printf
`%02d` or `%03d` renders an `int` (for a negative value the zeros follow
the minus sign). -/
def intDecimalPad (w : Nat) (v : Int) : List Char :=
  if v < 0 then '-' :: zeroPad (w - 1) (Nat.toDigits 10 (-v).toNat)
  else zeroPad w (Nat.toDigits 10 v.toNat)

/-- `tty_output_update` from main.c (lines 42-50): computes
`ms = tv_nsec / NSEC_PER_MSEC`, `s = tv_sec % 60`, `m = tv_sec / 60 % 60`,
`h = tv_sec / 3600` (C `/` and `%` truncate toward zero; each result is
converted to a 32-bit `int`), then prints
`%d:%02d.%02d.%03d` style fields separated by a colon, an apostrophe and a
double quote, terminated by a carriage return. -/
def tty_output_update (ts : Timespec) : List Char :=
  let ms := wrap32 (Int.tdiv ts.tv_nsec NSEC_PER_MSEC)
  let s := wrap32 (Int.tmod ts.tv_sec 60)
  let m := wrap32 (Int.tmod (Int.tdiv ts.tv_sec 60) 60)
  let h := wrap32 (Int.tdiv ts.tv_sec 3600)
  (intDecimal h ++ ':' ::
    (intDecimalPad 2 m ++ apostChar ::
      (intDecimalPad 2 s ++ quoteChar :: intDecimalPad 3 ms))) ++ ['\r']

/-- `notty_output_update` from main.c (lines 57-65): identical computation
and fields, terminated by a newline instead of a carriage return. -/
def notty_output_update (ts : Timespec) : List Char :=
  let ms := wrap32 (Int.tdiv ts.tv_nsec NSEC_PER_MSEC)
  let s := wrap32 (Int.tmod ts.tv_sec 60)
  let m := wrap32 (Int.tmod (Int.tdiv ts.tv_sec 60) 60)
  let h := wrap32 (Int.tdiv ts.tv_sec 3600)
  (intDecimal h ++ ':' ::
    (intDecimalPad 2 m ++ apostChar ::
      (intDecimalPad 2 s ++ quoteChar :: intDecimalPad 3 ms))) ++ ['\n']

/-- Rendering contract written from the words of the spec, for comparison
with the code formatter: hours is the unbounded whole-hours count, minutes
and seconds are zero-padded to two digits, milliseconds are zero-padded to
three digits and truncated (not rounded) from the nanosecond component. -/
def specRender (ts : Timespec) : List Char :=
  intDecimal (Int.tdiv ts.tv_sec 3600) ++ ':' ::
    (intDecimalPad 2 (Int.tmod (Int.tdiv ts.tv_sec 60) 60) ++ apostChar ::
      (intDecimalPad 2 (Int.tmod ts.tv_sec 60) ++ quoteChar ::
        intDecimalPad 3 (Int.tdiv ts.tv_nsec NSEC_PER_MSEC)))

/-- The option-processing loop of `parse_args` (main.c lines 147-173),
threading the `refresh_interval` out-parameter: a `-d` option parses its
argument with `parse_time_interval` (a parse failure, a missing argument,
`-h`, an unknown option or a stray positional argument all lead to
`usage`, which exits - modelled as `none`). -/
def parseArgsLoop : List (List Char) → Timespec → Option Timespec
  | [], acc => some acc
  | arg :: rest, acc =>
    if arg = ['-', 'd'] then
      match rest with
      | [] => none
      | v :: rest2 =>
        match parse_time_interval v acc with
        | (0, ts) => parseArgsLoop rest2 ts
        | _ => none
    else none

/-- `parse_args` from main.c (lines 139-174): first sets the default
refresh interval of 0 seconds and `100 * NSEC_PER_MSEC` nanoseconds
(lines 144-145), then processes the options.  `getopt` bookkeeping is
simplified to one option token followed by its argument token. -/
def parse_args (args : List (List Char)) : Option Timespec :=
  parseArgsLoop args ⟨0, 100 * NSEC_PER_MSEC⟩

/-- Characterisation of the digit predicate by character codes. -/
theorem isdigit_iff {c : Char} : isdigit c = true ↔ 48 ≤ c.toNat ∧ c.toNat ≤ 57 := by
  simp [isdigit]

/-- A digit character contributes a value between 0 and 9. -/
theorem digitVal_bounds {c : Char} (h : isdigit c = true) :
    0 ≤ digitVal c ∧ digitVal c ≤ 9 := by
  rcases isdigit_iff.mp h with ⟨h1, h2⟩
  unfold digitVal
  omega

/-- 64-bit wraparound is the identity on the representable range
(only the non-negative half is needed here). -/
theorem wrap64_eq_self {x : Int} (h0 : 0 ≤ x) (h1 : x < 2 ^ 63) : wrap64 x = x := by
  have h63 : (2 : Int) ^ 63 = 9223372036854775808 := by norm_num
  have h64 : (2 : Int) ^ 64 = 18446744073709551616 := by norm_num
  unfold wrap64
  rw [h63] at h1 ⊢
  rw [h64]
  have hm : Int.emod (x + 9223372036854775808) 18446744073709551616 =
      x + 9223372036854775808 := Int.emod_eq_of_lt (by omega) (by omega)
  rw [hm]
  omega

/-- 32-bit wraparound is the identity on the representable range. -/
theorem wrap32_eq_self {x : Int} (h0 : -(2 ^ 31) ≤ x) (h1 : x < 2 ^ 31) : wrap32 x = x := by
  have h31 : (2 : Int) ^ 31 = 2147483648 := by norm_num
  have h32 : (2 : Int) ^ 32 = 4294967296 := by norm_num
  unfold wrap32
  rw [h31] at h0 h1 ⊢
  rw [h32]
  have hm : Int.emod (x + 2147483648) 4294967296 =
      x + 2147483648 := Int.emod_eq_of_lt (by omega) (by omega)
  rw [hm]
  omega

/-- Exact decimal accumulation over digit characters never decreases a
non-negative accumulator. -/
theorem le_decFold (cs : List Char) : ∀ acc : Int,
    (∀ c ∈ cs, isdigit c = true) → 0 ≤ acc → acc ≤ decFold acc cs := by
  induction cs with
  | nil => intro acc _ _; simp [decFold]
  | cons c cs ih =>
    intro acc h h0
    have hd := digitVal_bounds (h c (by simp))
    have hstep := ih (acc * 10 + digitVal c)
      (fun x hx => h x (by simp [hx])) (by omega)
    have hred : decFold acc (c :: cs) = decFold (acc * 10 + digitVal c) cs := rfl
    rw [hred]
    omega

/-- Exact decimal accumulation of digit characters is non-negative. -/
theorem decFold_nonneg (cs : List Char) (acc : Int)
    (h : ∀ c ∈ cs, isdigit c = true) (h0 : 0 ≤ acc) : 0 ≤ decFold acc cs :=
  le_trans h0 (le_decFold cs acc h h0)

/-- As long as the exact decimal value stays below `2 ^ 63`, the wrapping
accumulation of `intLoop` agrees with the exact one. -/
theorem wrapFold_eq_decFold (cs : List Char) : ∀ acc : Int,
    (∀ c ∈ cs, isdigit c = true) → 0 ≤ acc → decFold acc cs < 2 ^ 63 →
    wrapFold acc cs = decFold acc cs := by
  induction cs with
  | nil => intro acc _ _ _; rfl
  | cons c cs ih =>
    intro acc h h0 hlt
    have hd := digitVal_bounds (h c (by simp))
    have htail : ∀ x ∈ cs, isdigit x = true := fun x hx => h x (by simp [hx])
    have h0' : 0 ≤ acc * 10 + digitVal c := by omega
    have hredD : decFold acc (c :: cs) = decFold (acc * 10 + digitVal c) cs := rfl
    rw [hredD] at hlt
    have hle := le_decFold cs (acc * 10 + digitVal c) htail h0'
    have hwrap : wrap64 (acc * 10 + digitVal c) = acc * 10 + digitVal c :=
      wrap64_eq_self h0' (by omega)
    have hredW : wrapFold acc (c :: cs) =
        wrapFold (wrap64 (acc * 10 + digitVal c)) cs := rfl
    rw [hredW, hwrap, hredD]
    exact ih (acc * 10 + digitVal c) htail h0' hlt

/-- Dividing a positive power of ten by ten (C truncating division). -/
theorem tdiv_pow_ten (m : Nat) : Int.tdiv (10 ^ (m + 1)) 10 = 10 ^ m := by
  have h : (10 : Int) ^ (m + 1) = 10 ^ m * 10 := by ring
  rw [h]
  exact Int.mul_tdiv_cancel _ (by norm_num)

/-- Running the integer-part loop over a digit prefix followed by a rest
that does not start with a digit: the loop consumes exactly the prefix. -/
theorem intLoop_append (ds : List Char) : ∀ (rest : List Char) (acc : Int) (i : Nat),
    (∀ c ∈ ds, isdigit c = true) →
    (∀ c cs2, rest = c :: cs2 → isdigit c = false) →
    intLoop (ds ++ rest) acc i = (wrapFold acc ds, rest, i + ds.length) := by
  induction ds with
  | nil =>
    intro rest acc i _ hrest
    cases rest with
    | nil => simp [intLoop, wrapFold]
    | cons c cs2 =>
      have hc := hrest c cs2 rfl
      simp [intLoop, hc, wrapFold]
  | cons c ds ih =>
    intro rest acc i hds hrest
    have hc : isdigit c = true := hds c (by simp)
    have hstep : intLoop ((c :: ds) ++ rest) acc i
        = intLoop (ds ++ rest) (wrap64 (acc * 10 + digitVal c)) (i + 1) := by
      simp [intLoop, hc]
    rw [hstep, ih rest _ (i + 1) (fun x hx => hds x (by simp [hx])) hrest]
    simp only [wrapFold, List.length_cons, Prod.mk.injEq]
    exact ⟨trivial, trivial, by omega⟩

/-- The integer-part loop on an arbitrary string consumes exactly the
maximal digit prefix. -/
theorem intLoop_eq_takeWhile (value : List Char) : ∀ (acc : Int) (i : Nat),
    intLoop value acc i =
      (wrapFold acc (value.takeWhile isdigit), value.dropWhile isdigit,
        i + (value.takeWhile isdigit).length) := by
  induction value with
  | nil => intro acc i; simp [intLoop, wrapFold]
  | cons c cs ih =>
    intro acc i
    by_cases hc : isdigit c = true
    · have hstep : intLoop (c :: cs) acc i
          = intLoop cs (wrap64 (acc * 10 + digitVal c)) (i + 1) := by
        simp [intLoop, hc]
      rw [hstep, ih]
      simp only [List.takeWhile_cons, List.dropWhile_cons, hc, if_true,
        List.length_cons, Prod.mk.injEq, wrapFold]
      exact ⟨trivial, trivial, by omega⟩
    · have hc' : isdigit c = false := by
        cases h : isdigit c with
        | false => rfl
        | true => exact absurd h hc
      simp [intLoop, List.takeWhile_cons, List.dropWhile_cons, hc', wrapFold]

/-- Positional weighting of at most `m + 1` digit characters starting at
weight `10 ^ m` is non-negative and below `10 ^ (m + 1)`. -/
theorem posW_bounds (fs : List Char) : ∀ m : Nat,
    (∀ c ∈ fs, isdigit c = true) → fs.length ≤ m + 1 →
    0 ≤ posW fs m ∧ posW fs m < 10 ^ (m + 1) := by
  induction fs with
  | nil =>
    intro m _ _
    exact ⟨le_refl 0, pow_pos (by norm_num) (m + 1)⟩
  | cons c cs ih =>
    intro m h hlen
    have hd := digitVal_bounds (h c (by simp))
    cases m with
    | zero =>
      have hnil : cs = [] := by
        cases cs with
        | nil => rfl
        | cons _ _ => simp at hlen
      subst hnil
      simp only [posW, pow_zero, pow_one, mul_one]
      omega
    | succ m' =>
      have hcs := ih m' (fun x hx => h x (by simp [hx]))
        (by simp only [List.length_cons] at hlen; omega)
      have hred : posW (c :: cs) (m' + 1)
          = digitVal c * 10 ^ (m' + 1) + posW cs m' := by
        simp [posW]
      have hX : (0 : Int) < 10 ^ (m' + 1) := pow_pos (by norm_num) _
      have hdX : digitVal c * 10 ^ (m' + 1) ≤ 9 * 10 ^ (m' + 1) :=
        mul_le_mul_of_nonneg_right hd.2 (le_of_lt hX)
      have hdX0 : 0 ≤ digitVal c * 10 ^ (m' + 1) :=
        mul_nonneg hd.1 (le_of_lt hX)
      have hsucc : (10 : Int) ^ (m' + 1 + 1) = 10 ^ (m' + 1) * 10 :=
        pow_succ 10 (m' + 1)
      rw [hred]
      constructor
      · linarith [hcs.1]
      · linarith [hcs.2]

/-- The starting weight of the fractional loop is `10 ^ 8`. -/
theorem nsec_decisec_eq_pow : NSEC_PER_DECISEC = 10 ^ 8 := by
  norm_num [NSEC_PER_DECISEC]

/-- Fractional loop over fewer digit characters than the weight allows:
every character is consumed, the weight never reaches zero, and the loop
exits at the end of the string with the positionally weighted sum added
to the accumulator. -/
theorem fracLoop_digits_short (fs : List Char) : ∀ (m : Nat) (acc : Int) (i : Nat),
    (∀ c ∈ fs, isdigit c = true) → fs.length ≤ m →
    0 ≤ acc → acc + 10 ^ (m + 1) ≤ 10 ^ 9 →
    fracLoop fs acc (10 ^ m) i = (acc + posW fs m, [], i + fs.length, false) := by
  induction fs with
  | nil =>
    intro m acc i _ _ _ _
    simp [fracLoop, posW]
  | cons c cs ih =>
    intro m acc i h hlen h0 hb
    have hc : isdigit c = true := h c (by simp)
    have hd := digitVal_bounds hc
    obtain ⟨m', rfl⟩ : ∃ m', m = m' + 1 := by
      cases m with
      | zero => simp at hlen
      | succ m' => exact ⟨m', rfl⟩
    have hX : (0 : Int) < 10 ^ (m' + 1) := pow_pos (by norm_num) _
    have hsucc : (10 : Int) ^ (m' + 1 + 1) = 10 ^ (m' + 1) * 10 :=
      pow_succ 10 (m' + 1)
    have hdX : digitVal c * 10 ^ (m' + 1) ≤ 9 * 10 ^ (m' + 1) :=
      mul_le_mul_of_nonneg_right hd.2 (le_of_lt hX)
    have hdX0 : 0 ≤ digitVal c * 10 ^ (m' + 1) :=
      mul_nonneg hd.1 (le_of_lt hX)
    have h29 : (10 : Int) ^ 9 < 2 ^ 63 := by norm_num
    have hwrap : wrap64 (acc + digitVal c * 10 ^ (m' + 1))
        = acc + digitVal c * 10 ^ (m' + 1) :=
      wrap64_eq_self (by linarith) (by linarith)
    have hw2 : Int.tdiv ((10 : Int) ^ (m' + 1)) 10 = 10 ^ m' := tdiv_pow_ten m'
    have hw2ne : ((10 : Int) ^ m' = 0) = False := by
      simp [pow_eq_zero_iff]
    have hstep : fracLoop (c :: cs) acc (10 ^ (m' + 1)) i
        = fracLoop cs (acc + digitVal c * 10 ^ (m' + 1)) (10 ^ m') (i + 1) := by
      simp [fracLoop, hc, hwrap, hw2, hw2ne]
    have htail : ∀ x ∈ cs, isdigit x = true := fun x hx => h x (by simp [hx])
    rw [hstep, ih m' _ (i + 1) htail
      (by simp only [List.length_cons] at hlen; omega)
      (by linarith) (by linarith)]
    simp only [posW, Prod.mk.injEq, List.length_cons, Nat.add_sub_cancel]
    exact ⟨by ring, trivial, by omega, trivial⟩

/-- Fractional loop over exactly `m + 1` digit characters followed by an
arbitrary suffix: the weight reaches zero on the last digit and the loop
jumps to the success label, leaving the suffix unread. -/
theorem fracLoop_jump (m : Nat) : ∀ (pre suf : List Char) (acc : Int) (i : Nat),
    (∀ c ∈ pre, isdigit c = true) → pre.length = m + 1 →
    0 ≤ acc → acc + 10 ^ (m + 1) ≤ 10 ^ 9 →
    fracLoop (pre ++ suf) acc (10 ^ m) i = (acc + posW pre m, suf, i + m, true) := by
  induction m with
  | zero =>
    intro pre suf acc i h hlen h0 hb
    obtain ⟨c, rfl⟩ : ∃ c, pre = [c] := by
      cases pre with
      | nil => simp at hlen
      | cons c cs =>
        cases cs with
        | nil => exact ⟨c, rfl⟩
        | cons _ _ => simp at hlen
    have hc : isdigit c = true := h c (by simp)
    have hd := digitVal_bounds hc
    have h29 : (10 : Int) ^ 9 < 2 ^ 63 := by norm_num
    have hb1 : acc + 10 ≤ 10 ^ 9 := by
      have : (10 : Int) ^ (0 + 1) = 10 := by norm_num
      linarith [hb, this.le, this.ge]
    have hwrap : wrap64 (acc + digitVal c * 10 ^ 0) = acc + digitVal c * 10 ^ 0 := by
      apply wrap64_eq_self
      · simp only [pow_zero, mul_one]; omega
      · simp only [pow_zero, mul_one]; omega
    have ht1 : Int.tdiv (1 : Int) 10 = 0 := by decide
    have hwrap1 : wrap64 (acc + digitVal c) = acc + digitVal c := by
      simpa using hwrap
    simp [fracLoop, hc, hwrap1, ht1, posW]
  | succ m' ih =>
    intro pre suf acc i h hlen h0 hb
    obtain ⟨c, cs, rfl⟩ : ∃ c cs, pre = c :: cs := by
      cases pre with
      | nil => simp at hlen
      | cons c cs => exact ⟨c, cs, rfl⟩
    have hcs : cs.length = m' + 1 := by
      simp only [List.length_cons] at hlen; omega
    have hc : isdigit c = true := h c (by simp)
    have hd := digitVal_bounds hc
    have hX : (0 : Int) < 10 ^ (m' + 1 + 1) := pow_pos (by norm_num) _
    have hsucc : (10 : Int) ^ (m' + 1 + 1) = 10 ^ (m' + 1) * 10 :=
      pow_succ 10 (m' + 1)
    have hdX : digitVal c * 10 ^ (m' + 1) ≤ 9 * 10 ^ (m' + 1) :=
      mul_le_mul_of_nonneg_right hd.2 (le_of_lt (pow_pos (by norm_num) _))
    have hdX0 : 0 ≤ digitVal c * 10 ^ (m' + 1) :=
      mul_nonneg hd.1 (le_of_lt (pow_pos (by norm_num) _))
    have h29 : (10 : Int) ^ 9 < 2 ^ 63 := by norm_num
    have hXpos : (0 : Int) < 10 ^ (m' + 1) := pow_pos (by norm_num) _
    have hwrap : wrap64 (acc + digitVal c * 10 ^ (m' + 1))
        = acc + digitVal c * 10 ^ (m' + 1) :=
      wrap64_eq_self (by linarith) (by linarith)
    have hw2 : Int.tdiv ((10 : Int) ^ (m' + 1)) 10 = 10 ^ m' := tdiv_pow_ten m'
    have hw2ne : ((10 : Int) ^ m' = 0) = False := by
      simp [pow_eq_zero_iff]
    have hstep : fracLoop ((c :: cs) ++ suf) acc (10 ^ (m' + 1)) i
        = fracLoop (cs ++ suf) (acc + digitVal c * 10 ^ (m' + 1)) (10 ^ m') (i + 1) := by
      simp [fracLoop, hc, hwrap, hw2, hw2ne]
    have htail : ∀ x ∈ cs, isdigit x = true := fun x hx => h x (by simp [hx])
    rw [hstep, ih cs suf _ (i + 1) htail hcs (by linarith) (by linarith)]
    simp only [posW, Prod.mk.injEq, Nat.add_sub_cancel]
    exact ⟨by ring, trivial, by omega, trivial⟩

/-- The fractional accumulator stays within `[0, 10 ^ 9)` on every input,
digits or not, as long as the entry invariant holds. -/
theorem fracLoop_res_bounds (cs : List Char) : ∀ (m : Nat) (acc : Int) (i : Nat),
    0 ≤ acc → acc + 10 ^ (m + 1) ≤ 10 ^ 9 →
    0 ≤ (fracLoop cs acc (10 ^ m) i).1 ∧ (fracLoop cs acc (10 ^ m) i).1 < 10 ^ 9 := by
  induction cs with
  | nil =>
    intro m acc i h0 hb
    have hX : (0 : Int) < 10 ^ (m + 1) := pow_pos (by norm_num) _
    simp only [fracLoop]
    exact ⟨h0, by linarith⟩
  | cons c cs ih =>
    intro m acc i h0 hb
    have hX : (0 : Int) < 10 ^ (m + 1) := pow_pos (by norm_num) _
    by_cases hc : isdigit c = true
    · have hd := digitVal_bounds hc
      have hXm : (0 : Int) < 10 ^ m := pow_pos (by norm_num) _
      have hsucc : (10 : Int) ^ (m + 1) = 10 ^ m * 10 := pow_succ 10 m
      have hdX : digitVal c * 10 ^ m ≤ 9 * 10 ^ m :=
        mul_le_mul_of_nonneg_right hd.2 (le_of_lt hXm)
      have hdX0 : 0 ≤ digitVal c * 10 ^ m := mul_nonneg hd.1 (le_of_lt hXm)
      have h29 : (10 : Int) ^ 9 < 2 ^ 63 := by norm_num
      have hwrap : wrap64 (acc + digitVal c * 10 ^ m) = acc + digitVal c * 10 ^ m :=
        wrap64_eq_self (by linarith) (by linarith)
      cases m with
      | zero =>
        have ht1 : Int.tdiv (1 : Int) 10 = 0 := by decide
        have hwrap1 : wrap64 (acc + digitVal c) = acc + digitVal c := by
          simpa using hwrap
        have hred : fracLoop (c :: cs) acc (10 ^ 0) i
            = (acc + digitVal c, cs, i, true) := by
          simp [fracLoop, hc, hwrap1, ht1]
        rw [hred]
        simp only [pow_zero, mul_one]
        constructor
        · omega
        · have : (10 : Int) ^ (0 + 1) = 10 := by norm_num
          have hb' : acc + 10 ≤ 10 ^ 9 := by linarith [hb, this.le]
          omega
      | succ m' =>
        have hw2 : Int.tdiv ((10 : Int) ^ (m' + 1)) 10 = 10 ^ m' := tdiv_pow_ten m'
        have hw2ne : ((10 : Int) ^ m' = 0) = False := by
          simp [pow_eq_zero_iff]
        have hstep : fracLoop (c :: cs) acc (10 ^ (m' + 1)) i
            = fracLoop cs (acc + digitVal c * 10 ^ (m' + 1)) (10 ^ m') (i + 1) := by
          simp [fracLoop, hc, hwrap, hw2, hw2ne]
        rw [hstep]
        have hsucc' : (10 : Int) ^ (m' + 1 + 1) = 10 ^ (m' + 1) * 10 :=
          pow_succ 10 (m' + 1)
        exact ih m' _ (i + 1) (by linarith) (by linarith)
    · have hc' : isdigit c = false := by
        cases h : isdigit c with
        | false => rfl
        | true => exact absurd h hc
      have hred : fracLoop (c :: cs) acc (10 ^ m) i = (acc, c :: cs, i, false) := by
        simp [fracLoop, hc']
      rw [hred]
      exact ⟨h0, by linarith⟩

/-- Parsing a non-empty all-digit string succeeds with a zero fractional
part and the wrapped decimal value as the seconds field. -/
theorem parse_all_digits (ds : List Char) (r : Timespec)
    (hne : ds ≠ []) (h : ∀ c ∈ ds, isdigit c = true) :
    parse_time_interval ds r = (0, ⟨wrapFold 0 ds, 0⟩) := by
  have hi : intLoop ds 0 0 = (wrapFold 0 ds, [], ds.length) := by
    have := intLoop_append ds [] 0 0 h
      (fun c cs2 hcc => absurd hcc (by simp))
    simpa using this
  have hlen : ds.length ≠ 0 := fun hl => hne (List.length_eq_zero.mp hl)
  unfold parse_time_interval
  rw [hi]
  simp [hlen]

/-- Parsing a digit string, a decimal point and one to nine fractional
digit characters succeeds with the positionally weighted fractional
part. -/
theorem parse_frac_small (ds fs : List Char) (r : Timespec)
    (hne : ds ≠ []) (hds : ∀ c ∈ ds, isdigit c = true)
    (hfs : ∀ c ∈ fs, isdigit c = true)
    (h1 : 1 ≤ fs.length) (h9 : fs.length ≤ 9) :
    parse_time_interval (ds ++ '.' :: fs) r = (0, ⟨wrapFold 0 ds, posW fs 8⟩) := by
  have hdot : isdigit '.' = false := by decide
  have hi : intLoop (ds ++ '.' :: fs) 0 0 = (wrapFold 0 ds, '.' :: fs, ds.length) := by
    have := intLoop_append ds ('.' :: fs) 0 0 hds
      (by intro c cs2 hcc; injection hcc with h1 h2; rw [← h1]; exact hdot)
    simpa using this
  have hdpos : 1 ≤ ds.length := List.length_pos.mpr hne
  unfold parse_time_interval
  rw [hi]
  rcases Nat.lt_or_ge fs.length 9 with hlt | hge
  · have hf : fracLoop fs 0 NSEC_PER_DECISEC (ds.length + 1)
        = (0 + posW fs 8, [], ds.length + 1 + fs.length, false) := by
      rw [nsec_decisec_eq_pow]
      exact fracLoop_digits_short fs 8 0 (ds.length + 1) hfs (by omega)
        (by norm_num) (by norm_num)
    have hi2 : ds.length + 1 + fs.length ≠ 1 := by omega
    simp [hf, hi2]
  · have h9' : fs.length = 9 := by omega
    have hf : fracLoop fs 0 NSEC_PER_DECISEC (ds.length + 1)
        = (0 + posW fs 8, [], ds.length + 1 + 8, true) := by
      rw [nsec_decisec_eq_pow]
      have := fracLoop_jump 8 fs [] 0 (ds.length + 1) hfs (by omega)
        (by norm_num) (by norm_num)
      rwa [List.append_nil] at this
    simp [hf]

/-- Parsing a digit string, a decimal point, nine fractional digits and an
arbitrary suffix succeeds, the suffix being left entirely unread. -/
theorem parse_nine_suffix (ds f9 suffix : List Char) (r : Timespec)
    (_hne : ds ≠ []) (hds : ∀ c ∈ ds, isdigit c = true)
    (hf9 : ∀ c ∈ f9, isdigit c = true) (hlen : f9.length = 9) :
    parse_time_interval (ds ++ '.' :: (f9 ++ suffix)) r
      = (0, ⟨wrapFold 0 ds, posW f9 8⟩) := by
  have hdot : isdigit '.' = false := by decide
  have hi : intLoop (ds ++ '.' :: (f9 ++ suffix)) 0 0
      = (wrapFold 0 ds, '.' :: (f9 ++ suffix), ds.length) := by
    have := intLoop_append ds ('.' :: (f9 ++ suffix)) 0 0 hds
      (by intro c cs2 hcc; injection hcc with h1 h2; rw [← h1]; exact hdot)
    simpa using this
  unfold parse_time_interval
  rw [hi]
  have hf : fracLoop (f9 ++ suffix) 0 NSEC_PER_DECISEC (ds.length + 1)
      = (0 + posW f9 8, suffix, ds.length + 1 + 8, true) := by
    rw [nsec_decisec_eq_pow]
    exact fracLoop_jump 8 f9 suffix 0 (ds.length + 1) hf9 (by omega)
      (by norm_num) (by norm_num)
  simp [hf]

/-- Every successful parse writes the wrapped decimal value of the maximal
digit prefix into the seconds field, and a nanoseconds field within
`[0, 10 ^ 9)`. -/
theorem parse_success_bounds (value : List Char) (r : Timespec)
    (h : (parse_time_interval value r).1 = 0) :
    (parse_time_interval value r).2.tv_sec
        = wrapFold 0 (value.takeWhile isdigit) ∧
    0 ≤ (parse_time_interval value r).2.tv_nsec ∧
    (parse_time_interval value r).2.tv_nsec < 10 ^ 9 := by
  obtain ⟨tk, htk⟩ : ∃ tk, value.takeWhile isdigit = tk := ⟨_, rfl⟩
  obtain ⟨dw, hdw⟩ : ∃ dw, value.dropWhile isdigit = dw := ⟨_, rfl⟩
  have hi : intLoop value 0 0 = (wrapFold 0 tk, dw, tk.length) := by
    have := intLoop_eq_takeWhile value 0 0
    rw [htk, hdw] at this
    simpa using this
  rw [htk]
  cases dw with
  | nil =>
    by_cases h0 : tk.length = 0
    · unfold parse_time_interval at h
      rw [hi] at h
      simp [h0] at h
    · unfold parse_time_interval
      rw [hi]
      simp [h0]
  | cons c rest2 =>
    by_cases hc : c = '.'
    · subst hc
      rcases hf : fracLoop rest2 0 NSEC_PER_DECISEC (tk.length + 1) with
        ⟨nsec, rest3, i2, jumped⟩
      have hb : 0 ≤ nsec ∧ nsec < 10 ^ 9 := by
        have := fracLoop_res_bounds rest2 8 0 (tk.length + 1)
          (by norm_num) (by norm_num)
        rw [← nsec_decisec_eq_pow, hf] at this
        simpa using this
      unfold parse_time_interval at h ⊢
      rw [hi] at h ⊢
      cases jumped with
      | true =>
        simp [hf]
        exact hb
      | false =>
        cases rest3 with
        | nil =>
          by_cases hi2 : i2 = 1
          · simp [hf, hi2] at h
          · simp [hf, hi2]
            exact hb
        | cons _ _ => simp [hf] at h
    · unfold parse_time_interval at h
      rw [hi] at h
      simp [hc] at h

/-- An erroring parse leaves the out-parameter untouched. -/
theorem parse_error_keeps_result (value : List Char) (r : Timespec)
    (h : (parse_time_interval value r).1 ≠ 0) :
    (parse_time_interval value r).2 = r := by
  obtain ⟨tk, htk⟩ : ∃ tk, value.takeWhile isdigit = tk := ⟨_, rfl⟩
  obtain ⟨dw, hdw⟩ : ∃ dw, value.dropWhile isdigit = dw := ⟨_, rfl⟩
  have hi : intLoop value 0 0 = (wrapFold 0 tk, dw, tk.length) := by
    have := intLoop_eq_takeWhile value 0 0
    rw [htk, hdw] at this
    simpa using this
  cases dw with
  | nil =>
    by_cases h0 : tk.length = 0
    · unfold parse_time_interval
      rw [hi]
      simp [h0]
    · unfold parse_time_interval at h
      rw [hi] at h
      simp [h0] at h
  | cons c rest2 =>
    by_cases hc : c = '.'
    · subst hc
      rcases hf : fracLoop rest2 0 NSEC_PER_DECISEC (tk.length + 1) with
        ⟨nsec, rest3, i2, jumped⟩
      unfold parse_time_interval at h ⊢
      rw [hi] at h ⊢
      cases jumped with
      | true => simp [hf] at h
      | false =>
        cases rest3 with
        | nil =>
          by_cases hi2 : i2 = 1
          · simp [hf, hi2]
          · simp [hf, hi2] at h
        | cons _ _ => simp [hf]
    · unfold parse_time_interval
      rw [hi]
      simp [hc]

/-- C1 counterexample: the claim says the parser returns an error for the
input consisting of a one followed by a decimal point, but
`parse_time_interval` accepts it, returning success and one second: the
lone-trailing-dot check `i == 1` only fires when the integer part is empty
as well. -/
theorem c1_counterexample :
    parse_time_interval ['1', '.'] ⟨0, 100000000⟩ = (0, ⟨1, 0⟩) := by decide

/-- C1 (amended): the parser rejects the empty string, a lone decimal
point, a string with two decimal points, letters, a leading minus sign and
a trailing blank, leaving the result parameter unchanged; but a digit
string followed by a bare trailing decimal point is accepted with a zero
fractional part (the decimal-point-with-zero-digits rejection applies only
when the integer part is empty too, that is, only to the lone dot). -/
theorem c1_reject_set_amended (r : Timespec) :
    parse_time_interval [] r = (-1, r) ∧
    parse_time_interval ['.'] r = (-1, r) ∧
    parse_time_interval ['1', '.', '2', '.', '3'] r = (-1, r) ∧
    parse_time_interval ['a', 'b', 'c'] r = (-1, r) ∧
    parse_time_interval ['-', '1'] r = (-1, r) ∧
    parse_time_interval ['1', ' '] r = (-1, r) ∧
    parse_time_interval ['1', '.'] r = (0, ⟨1, 0⟩) := by
  refine ⟨?_, ?_, ?_, ?_, ?_, ?_, ?_⟩ <;> rfl

/-- C2 counterexample: the claim says no elapsed-time sample is forwarded
to the sink on a Stop event, but the loop in `main` samples the stopwatch
and calls the output update once more after `sigwaitinfo` returns `SIGINT`
(the loop condition is only re-checked afterwards), so the trace for a
single stop event contains an update before the newline. -/
theorem c2_counterexample :
    displayLoop [(SWEvent.stop, ⟨1, 0⟩)] ≠ [OutAction.newline] ∧
    OutAction.update ⟨1, 0⟩ ∈ displayLoop [(SWEvent.stop, ⟨1, 0⟩)] := by
  exact ⟨by decide, by decide⟩

/-- C2 (amended): on a Tick event the loop samples the elapsed time,
forwards it to the sink and remains running; on a Stop event the loop
samples and forwards the elapsed time one final time, then emits the final
newline and terminates, returning control to the caller; no other
transitions occur. -/
theorem c2_display_loop_amended (ts : Timespec) (rest : List (SWEvent × Timespec)) :
    displayLoop ((SWEvent.tick, ts) :: rest)
      = OutAction.update ts :: displayLoop rest ∧
    displayLoop ((SWEvent.stop, ts) :: rest)
      = [OutAction.update ts, OutAction.newline] :=
  ⟨rfl, rfl⟩

/-- C3: every non-empty string of decimal digits parses successfully with
a zero fractional part, and every digit string followed by a decimal point
and one to nine fractional digits parses successfully with the nanosecond
component equal to the positionally weighted sum of the fractional digits,
`posW fs 8`, which is the sum over 1-based positions `k` of
`digit_k * 10 ^ (9 - k)`. -/
theorem c3_positional_parse :
    (∀ (ds : List Char) (r : Timespec), ds ≠ [] →
      (∀ c ∈ ds, isdigit c = true) →
      (parse_time_interval ds r).1 = 0 ∧
      (parse_time_interval ds r).2.tv_nsec = 0) ∧
    (∀ (ds fs : List Char) (r : Timespec), ds ≠ [] →
      (∀ c ∈ ds, isdigit c = true) →
      (∀ c ∈ fs, isdigit c = true) → 1 ≤ fs.length → fs.length ≤ 9 →
      (parse_time_interval (ds ++ '.' :: fs) r).1 = 0 ∧
      (parse_time_interval (ds ++ '.' :: fs) r).2.tv_nsec = posW fs 8) := by
  constructor
  · intro ds r hne h
    rw [parse_all_digits ds r hne h]
    exact ⟨rfl, rfl⟩
  · intro ds fs r hne hds hfs h1 h9
    rw [parse_frac_small ds fs r hne hds hfs h1 h9]
    exact ⟨rfl, rfl⟩

/-- C3 witness: concrete instances, including the spec examples where the
input two point one-two-three-four-five-six-seven-eight-nine yields
123456789 nanoseconds. -/
theorem c3_witness :
    (parse_time_interval ['1', '2'] ⟨0, 0⟩).1 = 0 ∧
    (parse_time_interval ['1', '2'] ⟨0, 0⟩).2.tv_nsec = 0 ∧
    (parse_time_interval (['2'] ++ '.' ::
      ['1', '2', '3', '4', '5', '6', '7', '8', '9']) ⟨0, 0⟩).2.tv_nsec
      = 123456789 := by
  have h1 := c3_positional_parse.1 ['1', '2'] ⟨0, 0⟩ (by decide) (by decide)
  have h2 := c3_positional_parse.2 ['2']
    ['1', '2', '3', '4', '5', '6', '7', '8', '9'] ⟨0, 0⟩
    (by decide) (by decide) (by decide) (by decide) (by decide)
  refine ⟨h1.1, h1.2, ?_⟩
  rw [h2.2]
  decide

set_option maxRecDepth 4000 in
/-- C4 counterexample: for the nineteen-nines input the parse succeeds but
the seconds field is not the exact decimal value of the digit string: the
`long` accumulation wraps around 64 bits and the stored value is negative,
so parsing does silently overflow the exact representation. -/
theorem c4_counterexample :
    (parse_time_interval
      ['9', '9', '9', '9', '9', '9', '9', '9', '9', '9', '9', '9', '9', '9', '9', '9', '9', '9', '9']
      ⟨0, 0⟩).1 = 0 ∧
    (parse_time_interval
      ['9', '9', '9', '9', '9', '9', '9', '9', '9', '9', '9', '9', '9', '9', '9', '9', '9', '9', '9']
      ⟨0, 0⟩).2.tv_sec ≠
      decFold 0
        ['9', '9', '9', '9', '9', '9', '9', '9', '9', '9', '9', '9', '9', '9', '9', '9', '9', '9', '9'] := by
  exact ⟨by decide, by decide⟩

/-- C4 (amended): for every accepted digit string whose exact decimal
value fits in a signed 64-bit `long`, that is, is below `2 ^ 63`, the
seconds component equals the exact decimal integer value of the input;
longer inputs overflow the 64-bit accumulator and wrap. -/
theorem c4_exact_seconds_amended (ds : List Char) (r : Timespec)
    (hne : ds ≠ []) (h : ∀ c ∈ ds, isdigit c = true)
    (hbound : decFold 0 ds < 2 ^ 63) :
    (parse_time_interval ds r).1 = 0 ∧
    (parse_time_interval ds r).2.tv_sec = decFold 0 ds := by
  rw [parse_all_digits ds r hne h]
  exact ⟨rfl, wrapFold_eq_decFold ds 0 h (le_refl 0) hbound⟩

/-- C4 witness: a three-digit input parses to its exact value. -/
theorem c4_witness :
    (parse_time_interval ['1', '2', '3'] ⟨0, 0⟩).1 = 0 ∧
    (parse_time_interval ['1', '2', '3'] ⟨0, 0⟩).2.tv_sec
      = decFold 0 ['1', '2', '3'] :=
  c4_exact_seconds_amended ['1', '2', '3'] ⟨0, 0⟩ (by decide) (by decide) (by decide)

/-- C5: for a digit string, a decimal point, nine fractional digits and an
arbitrary suffix, the parse succeeds, the nanosecond component is the
positional weighting of the nine fractional digits, and the result is
identical to parsing the same input without the suffix: once the weight
reaches zero the remaining characters are never examined or validated. -/
theorem c5_nine_digit_suffix (ds f9 suffix : List Char) (r : Timespec)
    (hne : ds ≠ []) (hds : ∀ c ∈ ds, isdigit c = true)
    (hf9 : ∀ c ∈ f9, isdigit c = true) (hlen : f9.length = 9) :
    (parse_time_interval (ds ++ '.' :: (f9 ++ suffix)) r).1 = 0 ∧
    (parse_time_interval (ds ++ '.' :: (f9 ++ suffix)) r).2.tv_nsec = posW f9 8 ∧
    parse_time_interval (ds ++ '.' :: (f9 ++ suffix)) r
      = parse_time_interval (ds ++ '.' :: f9) r := by
  have h1 := parse_nine_suffix ds f9 suffix r hne hds hf9 hlen
  have h2 := parse_nine_suffix ds f9 [] r hne hds hf9 hlen
  rw [List.append_nil] at h2
  rw [h1, h2]
  exact ⟨rfl, rfl, rfl⟩

/-- C5 witness: a nine-fractional-digit input with a non-digit suffix
parses exactly as without the suffix. -/
theorem c5_witness :
    parse_time_interval (['0'] ++ '.' ::
        (['1', '2', '3', '4', '5', '6', '7', '8', '9'] ++ ['x', '!'])) ⟨0, 0⟩
      = parse_time_interval (['0'] ++ '.' ::
        ['1', '2', '3', '4', '5', '6', '7', '8', '9']) ⟨0, 0⟩ ∧
    (parse_time_interval (['0'] ++ '.' ::
        (['1', '2', '3', '4', '5', '6', '7', '8', '9'] ++ ['x', '!'])) ⟨0, 0⟩).2.tv_nsec
      = 123456789 := by
  have h := c5_nine_digit_suffix ['0'] ['1', '2', '3', '4', '5', '6', '7', '8', '9']
    ['x', '!'] ⟨0, 0⟩ (by decide) (by decide) (by decide) (by decide)
  refine ⟨h.2.2, ?_⟩
  rw [h.2.1]
  decide

set_option maxRecDepth 4000 in
/-- C6 counterexample: an accepted nineteen-digit input whose seconds
field is negative after the 64-bit wraparound, so a successful parse does
not always produce a non-negative seconds component. -/
theorem c6_counterexample :
    (parse_time_interval
      ['9', '9', '9', '9', '9', '9', '9', '9', '9', '9', '9', '9', '9', '9', '9', '9', '9', '9', '8']
      ⟨0, 0⟩).1 = 0 ∧
    (parse_time_interval
      ['9', '9', '9', '9', '9', '9', '9', '9', '9', '9', '9', '9', '9', '9', '9', '9', '9', '9', '8']
      ⟨0, 0⟩).2.tv_sec < 0 := by
  exact ⟨by decide, by decide⟩

/-- C6 (amended): every successfully parsed duration has its nanosecond
component in `[0, 10 ^ 9)`; its seconds component is non-negative whenever
the exact decimal value of the digit prefix fits in a signed 64-bit
`long` (below `2 ^ 63`); larger integer parts wrap around and can leave a
negative seconds field. -/
theorem c6_normalized_amended (value : List Char) (r : Timespec)
    (h : (parse_time_interval value r).1 = 0) :
    0 ≤ (parse_time_interval value r).2.tv_nsec ∧
    (parse_time_interval value r).2.tv_nsec < 10 ^ 9 ∧
    (decFold 0 (value.takeWhile isdigit) < 2 ^ 63 →
      0 ≤ (parse_time_interval value r).2.tv_sec) := by
  have hs := parse_success_bounds value r h
  refine ⟨hs.2.1, hs.2.2, ?_⟩
  intro hb
  have hdig : ∀ c ∈ value.takeWhile isdigit, isdigit c = true :=
    fun c hc => List.mem_takeWhile_imp hc
  rw [hs.1, wrapFold_eq_decFold _ 0 hdig (le_refl 0) hb]
  exact decFold_nonneg _ 0 hdig (le_refl 0)

/-- C6 witness: a concrete accepted input with the bounds evaluated. -/
theorem c6_witness :
    0 ≤ (parse_time_interval ['3', '.', '2', '5'] ⟨0, 0⟩).2.tv_nsec ∧
    (parse_time_interval ['3', '.', '2', '5'] ⟨0, 0⟩).2.tv_nsec < 10 ^ 9 ∧
    0 ≤ (parse_time_interval ['3', '.', '2', '5'] ⟨0, 0⟩).2.tv_sec := by
  have h := c6_normalized_amended ['3', '.', '2', '5'] ⟨0, 0⟩ (by decide)
  exact ⟨h.1, h.2.1, h.2.2 (by decide)⟩

/-- C7 counterexample: at two-to-the-31 whole hours the hours value no
longer fits the 32-bit `int` variable `h` of `tty_output_update`, so the
rendered hours field wraps to a negative number instead of the unbounded
whole-hours count demanded by the format contract. -/
theorem c7_counterexample :
    tty_output_update ⟨3600 * 2 ^ 31, 0⟩
      ≠ specRender ⟨3600 * 2 ^ 31, 0⟩ ++ ['\r'] := by decide

/-- C7 (amended): for every non-negative duration with a normalized
nanosecond component and fewer than two-to-the-31 whole hours, the
formatter renders exactly the spec format: unbounded hours, minutes and
seconds zero-padded to two digits, milliseconds zero-padded to three
digits and truncated from the nanosecond component, followed by the
carriage-return terminator; durations of two-to-the-31 hours or more
overflow the 32-bit `int` holding the hours field. -/
theorem c7_render_amended (ts : Timespec)
    (h1 : 0 ≤ ts.tv_sec) (h2 : ts.tv_sec < 3600 * 2 ^ 31)
    (h3 : 0 ≤ ts.tv_nsec) (h4 : ts.tv_nsec < 10 ^ 9) :
    tty_output_update ts = specRender ts ++ ['\r'] := by
  have p31 : (2 : Int) ^ 31 = 2147483648 := by norm_num
  have p9 : (10 : Int) ^ 9 = 1000000000 := by norm_num
  rw [p31] at h2
  rw [p9] at h4
  have ems : Int.tdiv ts.tv_nsec NSEC_PER_MSEC = ts.tv_nsec / 1000000 := by
    rw [show NSEC_PER_MSEC = (1000000 : Int) from rfl]
    exact Int.tdiv_eq_ediv h3 (by norm_num)
  have hms1 : 0 ≤ Int.tdiv ts.tv_nsec NSEC_PER_MSEC := by rw [ems]; omega
  have hms2 : Int.tdiv ts.tv_nsec NSEC_PER_MSEC < 2 ^ 31 := by
    rw [ems, p31]; omega
  have hs1 : 0 ≤ Int.tmod ts.tv_sec 60 := Int.tmod_nonneg 60 h1
  have hs2 : Int.tmod ts.tv_sec 60 < 60 :=
    Int.tmod_lt_of_pos ts.tv_sec (by norm_num)
  have hq : 0 ≤ Int.tdiv ts.tv_sec 60 := Int.tdiv_nonneg h1 (by norm_num)
  have hm1 : 0 ≤ Int.tmod (Int.tdiv ts.tv_sec 60) 60 := Int.tmod_nonneg 60 hq
  have hm2 : Int.tmod (Int.tdiv ts.tv_sec 60) 60 < 60 :=
    Int.tmod_lt_of_pos _ (by norm_num)
  have eh : Int.tdiv ts.tv_sec 3600 = ts.tv_sec / 3600 :=
    Int.tdiv_eq_ediv h1 (by norm_num)
  have hh1 : 0 ≤ Int.tdiv ts.tv_sec 3600 := by rw [eh]; omega
  have hh2 : Int.tdiv ts.tv_sec 3600 < 2 ^ 31 := by rw [eh, p31]; omega
  have w1 : wrap32 (Int.tdiv ts.tv_nsec NSEC_PER_MSEC)
      = Int.tdiv ts.tv_nsec NSEC_PER_MSEC :=
    wrap32_eq_self (le_trans (by norm_num) hms1) hms2
  have w2 : wrap32 (Int.tmod ts.tv_sec 60) = Int.tmod ts.tv_sec 60 :=
    wrap32_eq_self (le_trans (by norm_num) hs1)
      (lt_trans hs2 (by norm_num))
  have w3 : wrap32 (Int.tmod (Int.tdiv ts.tv_sec 60) 60)
      = Int.tmod (Int.tdiv ts.tv_sec 60) 60 :=
    wrap32_eq_self (le_trans (by norm_num) hm1)
      (lt_trans hm2 (by norm_num))
  have w4 : wrap32 (Int.tdiv ts.tv_sec 3600) = Int.tdiv ts.tv_sec 3600 :=
    wrap32_eq_self (le_trans (by norm_num) hh1) hh2
  simp only [tty_output_update, specRender]
  rw [w1, w2, w3, w4]

/-- C7 witness: one hour, two minutes, three seconds and forty-five
milliseconds renders as the spec example string. -/
theorem c7_witness :
    tty_output_update ⟨3723, 45000000⟩
      = specRender ⟨3723, 45000000⟩ ++ ['\r'] ∧
    specRender ⟨3723, 45000000⟩
      = ['1', ':', '0', '2', apostChar, '0', '3', quoteChar, '0', '4', '5'] := by
  exact ⟨c7_render_amended ⟨3723, 45000000⟩ (by decide) (by decide)
    (by decide) (by decide), by decide⟩

/-- C8: with no command-line arguments, `parse_args` leaves the default
refresh interval of 0 seconds and 100000000 nanoseconds, that is, exactly
100 milliseconds, in place. -/
theorem c8_default_interval : parse_args [] = some ⟨0, 100000000⟩ := by decide

/-- C9: the interval parser is atomic on error: whenever
`parse_time_interval` returns a non-zero code, the result out-parameter is
returned completely unchanged, so a previously installed default interval
survives a failed parse. -/
theorem c9_error_atomicity (value : List Char) (r : Timespec)
    (h : (parse_time_interval value r).1 ≠ 0) :
    (parse_time_interval value r).2 = r :=
  parse_error_keeps_result value r h

/-- C9 witness: a failed parse of a non-digit input keeps the previously
stored interval. -/
theorem c9_witness : (parse_time_interval ['z'] ⟨5, 7⟩).2 = ⟨5, 7⟩ :=
  c9_error_atomicity ['z'] ⟨5, 7⟩ (by decide)

/-- C10: the interactive and non-interactive formatters agree on the whole
rendered text except for the final character, which is a carriage return
for the tty variant and a newline for the notty variant, for every
timespec input. -/
theorem c10_tty_notty_equiv (ts : Timespec) :
    (tty_output_update ts).dropLast = (notty_output_update ts).dropLast ∧
    (tty_output_update ts).getLast? = some '\r' ∧
    (notty_output_update ts).getLast? = some '\n' := by
  refine ⟨?_, ?_, ?_⟩
  · simp only [tty_output_update, notty_output_update, List.dropLast_concat]
  · simp only [tty_output_update, List.getLast?_concat]
  · simp only [notty_output_update, List.getLast?_concat]
